import Mathlib

/-!
Verification of the keyword clustering and batch-processing pipeline.

Shallow embedding of the core of the Slackbot content pipeline:
  * `app/keyword/processor.py`  — keyword cleaning, similarity filtering
  * `app/keyword/grouper.py`    — semantic grouping with clustering and fallback
  * `app/storage/cache.py`      — Redis-backed cache (get/set/delete/exists/increment)
  * `app/slack/commands.py`     — command handlers and the batch orchestration state machine

Strings are modelled as `String`/`List Char` over the ASCII fragment of
Python `str`/`re` semantics; Python floats are modelled as `ℚ`; the cache is a
key-to-entry map together with a `clientOk` flag (the `self.client` check that
every cache operation performs); time is an explicit `now : Nat`; the k-means
cluster assignment is an arbitrary labelling function `labels : Nat → Nat`
(the code only uses the label array it returns).
-/

namespace Pipeline

/-! ### Character-level model (ASCII fragment of Python text semantics) -/

/-- Python `\s` on ASCII: space, tab, newline, carriage return, vertical tab, form feed. -/
def isWs (c : Char) : Bool :=
  c.toNat == 32 || c.toNat == 9 || c.toNat == 10 || c.toNat == 13 ||
  c.toNat == 11 || c.toNat == 12

/-- Python `\w` on ASCII: letters, digits, underscore. -/
def isWordChar (c : Char) : Bool :=
  (65 ≤ c.toNat && c.toNat ≤ 90) || (97 ≤ c.toNat && c.toNat ≤ 122) ||
  (48 ≤ c.toNat && c.toNat ≤ 57) || c.toNat == 95

/-- Python `str.lower` on ASCII. -/
def lowerChar (c : Char) : Char :=
  if 65 ≤ c.toNat ∧ c.toNat ≤ 90 then Char.ofNat (c.toNat + 32) else c

/-- Drops leading characters satisfying `p` and trailing characters satisfying `p`
(Python `str.strip` with the corresponding character class). -/
def stripBoth (p : Char → Bool) (l : List Char) : List Char :=
  ((l.dropWhile p).reverse.dropWhile p).reverse

/-- Python `re.sub(r'\s+', ' ', s)`: every maximal whitespace run becomes one space. -/
def collapseWs : List Char → List Char
  | [] => []
  | c :: cs =>
    match cs with
    | [] => if isWs c then [' '] else [c]
    | c2 :: _ =>
      if isWs c then
        (if isWs c2 then collapseWs cs else ' ' :: collapseWs cs)
      else c :: collapseWs cs

/-- Python `re.sub(r'[^\w\s-]', '', s)`: keep word characters, whitespace and hyphens. -/
def removeSpecials (l : List Char) : List Char :=
  l.filter (fun c => isWordChar c || isWs c || c == '-')

/-- `KeywordProcessor._clean_keyword` on the character-list level:
lowercase, strip, collapse whitespace runs, drop special characters,
strip hyphens, strip whitespace (processor.py lines 107-124). -/
def cleanList (l : List Char) : List Char :=
  stripBoth isWs
    (stripBoth (fun c => c == '-')
      (removeSpecials (collapseWs (stripBoth isWs (l.map lowerChar)))))

/-- `KeywordProcessor._clean_keyword` (the spec's `normalize`). -/
def clean_keyword (s : String) : String := ⟨cleanList s.toList⟩

/-- Python `str.split()` helper: accumulates the current word (reversed). -/
def splitWsAux : List Char → List Char → List (List Char)
  | [], w => if w = [] then [] else [w.reverse]
  | c :: cs, w =>
    if isWs c then
      (if w = [] then splitWsAux cs [] else w.reverse :: splitWsAux cs [])
    else splitWsAux cs (c :: w)

/-- Python `str.split()` with no arguments: split on whitespace runs, no empty parts. -/
def splitWs (l : List Char) : List (List Char) := splitWsAux l []

/-! ### KeywordProcessor: similarity filtering (processor.py lines 172-212) -/

/-- Word set of a string after lowercasing: `set(s.lower().split())`. -/
def wordFinset (s : String) : Finset String :=
  ((splitWs (s.toList.map lowerChar)).map (fun w => (⟨w⟩ : String))).toFinset

/-- `KeywordProcessor._calculate_similarity`: Jaccard similarity of the word sets,
with the guards of the source (empty string, empty word set, zero union). -/
def calculate_similarity (s1 s2 : String) : ℚ :=
  if s1 = "" ∨ s2 = "" then 0
  else
    let w1 := wordFinset s1
    let w2 := wordFinset s2
    if w1 = ∅ ∨ w2 = ∅ then 0
    else
      let inter := (w1 ∩ w2).card
      let uni := (w1 ∪ w2).card
      if 0 < uni then (inter : ℚ) / (uni : ℚ) else 0

/-- First already-accepted keyword whose similarity with `k` exceeds the threshold
(the inner `for existing in filtered` loop, which breaks at the first hit). -/
def findSimilarIn (threshold : ℚ) (k : String) : List String → Option String
  | [] => none
  | e :: es =>
    if threshold < calculate_similarity k e then some e else findSimilarIn threshold k es

/-- One iteration of the outer loop of `filter_similar_keywords`: either accept `k`,
or (when similar to an accepted keyword) keep the shorter of the two. -/
def filterStep (threshold : ℚ) (filtered : List String) (k : String) : List String :=
  match findSimilarIn threshold k filtered with
  | none => filtered ++ [k]
  | some e => if k.length < e.length then (filtered.erase e) ++ [k] else filtered

/-- `KeywordProcessor.filter_similar_keywords` (the spec's `filterSimilar`). -/
def filter_similar_keywords (keywords : List String) (threshold : ℚ) : List String :=
  keywords.foldl (filterStep threshold) []

/-! ### KeywordGrouper (grouper.py) -/

structure KeywordGroup where
  id : String
  name : String
  keywords : List String
  score : ℚ
  deriving DecidableEq, Inhabited

/-- Words of the member keywords longer than two characters, in occurrence order
(the `word_freq` accumulation loop of `_generate_group_name`). -/
def sigWords (keywords : List String) : List String :=
  keywords.flatMap
    (fun k => ((splitWs k.toList).map (fun w => (⟨w⟩ : String))).filter (fun w => 2 < w.length))

/-- Keys of a Python dict built by repeated insertion: first-occurrence order. -/
def dedupFirst : List String → List String
  | [] => []
  | a :: l => a :: (dedupFirst l).filter (fun b => b ≠ a)

/-- Python `max(keys, key=counts)`: the first key (in iteration order) with the
maximal count; `max` replaces the running best only on strictly greater values. -/
def maxByCount (counts : String → Nat) : List String → Option String
  | [] => none
  | k :: ks => some (ks.foldl (fun best w => if counts best < counts w then w else best) k)

/-- `KeywordGrouper._generate_group_name` (grouper.py lines 89-108). -/
def generate_group_name (keywords : List String) : String :=
  match keywords with
  | [] => "Empty Group"
  | [k] => k
  | _ =>
    let words := sigWords keywords
    match maxByCount (fun w => words.count w) (dedupFirst words) with
    | some w => w ++ " related"
    | none => (keywords.headD "") ++ " group"

/-- Contiguous chunks of size `n` (the `keywords[i:i+group_size]` slices of the
fallback loop); `fuel` bounds the recursion and any `fuel ≥ l.length` is exact. -/
def chunkAux (n : Nat) : Nat → List α → List (List α)
  | 0, _ => []
  | _, [] => []
  | fuel + 1, l => l.take n :: chunkAux n fuel (l.drop n)

def chunkList (n : Nat) (l : List α) : List (List α) := chunkAux n l.length l

/-- `KeywordGrouper._fallback_grouping` (grouper.py lines 110-127). -/
def fallback_grouping (keywords : List String) : List KeywordGroup :=
  if keywords = [] then []
  else
    let groupSize := max 3 (keywords.length / 5)
    (chunkList groupSize keywords).enum.map
      (fun p => ⟨"group_" ++ toString (p.1 + 1), generate_group_name p.2, p.2, 1 / 2⟩)

/-- Cluster count: `min(self.settings.max_groups_per_batch, max(1, len(keywords) // 3))`. -/
def nClustersOf (maxGroups n : Nat) : Nat := min maxGroups (max 1 (n / 3))

/-- Members of cluster `c`: `[keywords[i] for i in range(len(keywords)) if labels[i] == c]`. -/
def clusterBucket (keywords : List String) (labels : Nat → Nat) (c : Nat) : List String :=
  ((List.range keywords.length).filter (fun i => labels i == c)).map
    (fun i => keywords.getD i "")

/-- `KeywordGrouper._cluster_keywords` (grouper.py lines 61-87); `labels` stands for
the array returned by `kmeans.fit_predict`, whose entries lie below the cluster
count; only non-empty clusters become groups, with fixed score 0.8. -/
def cluster_keywords (maxGroups : Nat) (labels : Nat → Nat) (keywords : List String) :
    List KeywordGroup :=
  let k := nClustersOf maxGroups keywords.length
  if k ≤ 1 then [⟨"group_1", generate_group_name keywords, keywords, 1⟩]
  else
    (List.range k).filterMap
      (fun c =>
        let ck := clusterBucket keywords labels c
        if ck = [] then none
        else some ⟨"group_" ++ toString (c + 1), generate_group_name ck, ck, 4 / 5⟩)

/-- `KeywordGrouper.group_keywords` (grouper.py lines 32-48): degenerate single
group for fewer than two keywords; fallback when embeddings are unavailable
(`embedOk = false`, covering a `None` model and raised errors); otherwise
clustering. -/
def group_keywords (maxGroups : Nat) (embedOk : Bool) (labels : Nat → Nat)
    (keywords : List String) : List KeywordGroup :=
  if keywords.length < 2 then [⟨"group_1", keywords.headD "empty", keywords, 1⟩]
  else if embedOk = false then fallback_grouping keywords
  else cluster_keywords maxGroups labels keywords

/-! ### CacheManager (cache.py): every operation first checks `self.client` and
returns the failure default when it is `None`; entries carry an optional
absolute expiry instant, and an expired entry behaves as absent. -/

structure CacheManager (α : Type) where
  clientOk : Bool
  entries : String → Option (α × Option Nat)

namespace CacheManager

/-- Entry of `k` if it exists and has not expired (Redis drops expired keys). -/
def liveEntry (now : Nat) (c : CacheManager α) (k : String) : Option (α × Option Nat) :=
  match c.entries k with
  | none => none
  | some (v, none) => some (v, none)
  | some (v, some e) => if now < e then some (v, some e) else none

/-- `CacheManager.get` (cache.py lines 88-106). -/
def get (now : Nat) (c : CacheManager α) (k : String) : Option α :=
  if c.clientOk then (liveEntry now c k).map Prod.fst else none

/-- `CacheManager.set` (cache.py lines 60-72): `setex` stores with a TTL. -/
def set (now : Nat) (c : CacheManager α) (k : String) (v : α) (ttl : Nat) :
    Bool × CacheManager α :=
  if c.clientOk then
    (true, { c with entries := Function.update c.entries k (some (v, some (now + ttl))) })
  else (false, c)

/-- `CacheManager.delete` (cache.py lines 127-138). -/
def delete (now : Nat) (c : CacheManager α) (k : String) : Bool × CacheManager α :=
  if c.clientOk then
    ((liveEntry now c k).isSome, { c with entries := Function.update c.entries k none })
  else (false, c)

/-- `CacheManager.exists` (cache.py lines 153-164). -/
def existsKey (now : Nat) (c : CacheManager α) (k : String) : Bool :=
  if c.clientOk then (liveEntry now c k).isSome else false

/-- `CacheManager.increment` (cache.py lines 179-190): Redis `INCRBY` creates an
absent (or expired) key with the increment amount and no expiry, and otherwise
adds to the stored integer keeping its expiry. -/
def increment (now : Nat) (c : CacheManager Int) (k : String) (amount : Int) :
    Int × CacheManager Int :=
  if c.clientOk then
    match liveEntry now c k with
    | none => (amount, { c with entries := Function.update c.entries k (some (amount, none)) })
    | some (v, e) =>
      (v + amount, { c with entries := Function.update c.entries k (some (v + amount, e)) })
  else (0, c)

end CacheManager

/-! ### CommandHandler (commands.py) -/

/-- `CommandHandler._check_rate_limit` (commands.py lines 434-447): first request
of a window stores the counter 1 with a 900-second TTL; a counter of at least 10
rejects; otherwise the counter is incremented. -/
def check_rate_limit (now : Nat) (c : CacheManager Int) (userId : String) :
    Bool × CacheManager Int :=
  let key := "rate_limit:" ++ userId
  match CacheManager.get now c key with
  | none => (true, (CacheManager.set now c key 1 900).2)
  | some current =>
    if 10 ≤ current then (false, c)
    else (true, (CacheManager.increment now c key 1).2)

/-- Outcome of `_start_batch_processing`: the "already processing" notice, or the
start of a background pipeline run. -/
inductive StartResult
  | alreadyProcessing
  | started
  deriving DecidableEq

/-- `CommandHandler._start_batch_processing` (commands.py lines 254-274): the
pipeline starts only when the lock key is absent; its TTL is 1800 seconds.
`db` maps a batch id to its persisted status. -/
def start_batch_processing (now : Nat) (db : String → Option String)
    (cache : CacheManager String) (batchId : String) :
    StartResult × (String → Option String) × CacheManager String :=
  let key := "processing:" ++ batchId
  if CacheManager.existsKey now cache key then (.alreadyProcessing, db, cache)
  else (.started, db, (CacheManager.set now cache key "processing" 1800).2)

/-- Injectable success/failure of the four pipeline stages (group, outline,
ideate, report); `false` stands for an unrecoverable exception raised while the
stage runs (including its progress message and persistence calls). -/
structure StageOutcomes where
  groupOk : Bool
  outlineOk : Bool
  ideateOk : Bool
  reportOk : Bool

/-- `CommandHandler._process_batch_background` (commands.py lines 280-369),
restricted to the batch-status and lock-key state it drives: status is set to
`processing`, the four stages run in order, and both the success path and the
`except` handler persist a terminal status and delete the lock key. -/
def process_batch_background (o : StageOutcomes) (batchId : String) (now : Nat)
    (db : String → Option String) (cache : CacheManager String) :
    (String → Option String) × CacheManager String :=
  let db1 := Function.update db batchId (some "processing")
  let key := "processing:" ++ batchId
  let failExit :=
    (Function.update db1 batchId (some "failed"), (CacheManager.delete now cache key).2)
  if o.groupOk = false then failExit
  else if o.outlineOk = false then failExit
  else if o.ideateOk = false then failExit
  else if o.reportOk = false then failExit
  else (Function.update db1 batchId (some "completed"), (CacheManager.delete now cache key).2)

/-- Batch record fields used by the command handlers. -/
structure KeywordBatch where
  userId : String
  keywords : List String
  status : String
  deriving DecidableEq

/-- User-visible outcome of a `/process` or `/regenerate` command. -/
inductive SlackResponse
  | processUsage
  | regenerateUsage
  | batchNotFound
  | unauthorizedBatch
  | processingFlow
  | regenerationFlow
  deriving DecidableEq

/-- `CommandHandler.handle_process_command` (commands.py lines 69-94): missing
batches and foreign batches get distinct responses. -/
def handle_process_command (db : String → Option KeywordBatch) (userId batchId : String) :
    SlackResponse :=
  if batchId = "" then .processUsage
  else
    match db batchId with
    | none => .batchNotFound
    | some b => if b.userId ≠ userId then .unauthorizedBatch else .processingFlow

/-- `CommandHandler.handle_regenerate_command` (commands.py lines 120-140): the
source collapses `not batch or batch["user_id"] != user_id` into one branch. -/
def handle_regenerate_command (db : String → Option KeywordBatch) (userId batchId : String) :
    SlackResponse :=
  if batchId = "" then .regenerateUsage
  else
    match db batchId with
    | none => .batchNotFound
    | some b => if b.userId ≠ userId then .batchNotFound else .regenerationFlow

/-! ### Iterated rate-limit requests (for the window property) -/

/-- Fresh working cache: a connected client and no stored keys. -/
def rlInit : CacheManager Int := ⟨true, fun _ => none⟩

/-- Cache state after `n` rate-limited requests by `user`, all at time 0. -/
def rlStates (user : String) : Nat → CacheManager Int
  | 0 => rlInit
  | n + 1 => (check_rate_limit 0 (rlStates user n) user).2

/-- Outcome of the `(n+1)`-st request by `user` at time 0. -/
def rlResult (user : String) (n : Nat) : Bool :=
  (check_rate_limit 0 (rlStates user n) user).1

/-- Twelve concrete keywords for the fallback-grouping instance. -/
def kws12 : List String :=
  ["alpha", "beta", "gamma", "delta", "epsilon", "zeta",
   "eta", "theta", "iota", "kappa", "lambda", "mu"]

/-! ## Helper lemmas about chunking and the fallback grouping -/

theorem chunkAux_nil (n : Nat) (fuel : Nat) : chunkAux n fuel ([] : List α) = [] := by
  cases fuel <;> rfl

theorem chunkAux_flatten (n : Nat) (hn : 0 < n) :
    ∀ (fuel : Nat) (l : List α), l.length ≤ fuel → (chunkAux n fuel l).flatten = l := by
  intro fuel
  induction fuel with
  | zero =>
    intro l hl
    rw [List.eq_nil_of_length_eq_zero (Nat.le_zero.mp hl)]
    rfl
  | succ fuel ih =>
    intro l hl
    cases l with
    | nil => rfl
    | cons a t =>
      show (List.take n (a :: t) :: chunkAux n fuel (List.drop n (a :: t))).flatten = a :: t
      rw [List.flatten_cons, ih (List.drop n (a :: t)) ?_, List.take_append_drop]
      rw [List.length_drop]
      simp only [List.length_cons] at hl ⊢
      omega

theorem chunkAux_mem (n : Nat) (hn : 0 < n) :
    ∀ (fuel : Nat) (l : List α), l.length ≤ fuel →
      ∀ c ∈ chunkAux n fuel l, c ≠ [] ∧ c.length ≤ n ∧ c.Sublist l := by
  intro fuel
  induction fuel with
  | zero =>
    intro l hl c hc
    rw [List.eq_nil_of_length_eq_zero (Nat.le_zero.mp hl), chunkAux_nil] at hc
    cases hc
  | succ fuel ih =>
    intro l hl c hc
    cases l with
    | nil => rw [chunkAux_nil] at hc; cases hc
    | cons a t =>
      rcases List.mem_cons.mp hc with rfl | hc
      · refine ⟨?_, List.length_take_le n _, List.take_sublist n _⟩
        have h1 : 0 < (List.take n (a :: t)).length := by
          rw [List.length_take]
          simp only [List.length_cons]
          omega
        exact List.length_pos.mp h1
      · have hlen : (List.drop n (a :: t)).length ≤ fuel := by
          rw [List.length_drop]
          simp only [List.length_cons] at hl ⊢
          omega
        obtain ⟨h1, h2, h3⟩ := ih (List.drop n (a :: t)) hlen c hc
        exact ⟨h1, h2, h3.trans (List.drop_sublist n _)⟩

theorem chunkAux_size (n : Nat) (hn : 0 < n) :
    ∀ (fuel : Nat) (l : List α), l.length ≤ fuel →
      ∀ i, i + 1 < (chunkAux n fuel l).length → ((chunkAux n fuel l).getD i []).length = n := by
  intro fuel
  induction fuel with
  | zero =>
    intro l hl i hi
    rw [List.eq_nil_of_length_eq_zero (Nat.le_zero.mp hl), chunkAux_nil] at hi
    simp at hi
  | succ fuel ih =>
    intro l hl i hi
    cases l with
    | nil => rw [chunkAux_nil] at hi; simp at hi
    | cons a t =>
      have hlen : (List.drop n (a :: t)).length ≤ fuel := by
        rw [List.length_drop]
        simp only [List.length_cons] at hl ⊢
        omega
      cases i with
      | zero =>
        have hrest : chunkAux n fuel (List.drop n (a :: t)) ≠ [] := by
          intro hrest
          rw [show chunkAux n (fuel + 1) (a :: t)
              = List.take n (a :: t) :: chunkAux n fuel (List.drop n (a :: t)) from rfl,
            hrest] at hi
          simp at hi
        have hdrop : List.drop n (a :: t) ≠ [] := by
          intro hd
          rw [hd, chunkAux_nil] at hrest
          exact hrest rfl
        have hlt : n < (a :: t).length := by
          by_contra hle
          exact hdrop (List.drop_eq_nil_iff.mpr (by omega))
        show (List.take n (a :: t)).length = n
        rw [List.length_take]
        omega
      | succ i =>
        show ((chunkAux n fuel (List.drop n (a :: t))).getD i []).length = n
        refine ih (List.drop n (a :: t)) hlen i ?_
        have : (chunkAux n (fuel + 1) (a :: t)).length
            = (chunkAux n fuel (List.drop n (a :: t))).length + 1 := rfl
        omega

theorem chunkAux_size_dvd (n : Nat) (hn : 0 < n) :
    ∀ (fuel : Nat) (l : List α), l.length ≤ fuel → n ∣ l.length →
      ∀ c ∈ chunkAux n fuel l, c.length = n := by
  intro fuel
  induction fuel with
  | zero =>
    intro l hl _ c hc
    rw [List.eq_nil_of_length_eq_zero (Nat.le_zero.mp hl), chunkAux_nil] at hc
    cases hc
  | succ fuel ih =>
    intro l hl hdvd c hc
    cases l with
    | nil => rw [chunkAux_nil] at hc; cases hc
    | cons a t =>
      have hge : n ≤ (a :: t).length := by
        refine Nat.le_of_dvd ?_ hdvd
        simp
      rcases List.mem_cons.mp hc with rfl | hc
      · rw [List.length_take]
        omega
      · have hlen : (List.drop n (a :: t)).length ≤ fuel := by
          rw [List.length_drop]
          simp only [List.length_cons] at hl ⊢
          omega
        refine ih (List.drop n (a :: t)) hlen ?_ c hc
        rw [List.length_drop]
        exact Nat.dvd_sub' hdvd dvd_rfl

theorem fallback_grouping_keywords_getD (keywords : List String) (i : Nat)
    (hi : i < (fallback_grouping keywords).length) :
    ((fallback_grouping keywords).getD i default).keywords
      = (chunkList (max 3 (keywords.length / 5)) keywords).getD i [] := by
  have hne : keywords ≠ [] := by
    intro h
    rw [h] at hi
    simp [fallback_grouping] at hi
  unfold fallback_grouping at hi ⊢
  rw [if_neg hne] at hi ⊢
  have hi' : i < (chunkList (max 3 (keywords.length / 5)) keywords).enum.length := by
    simpa using hi
  have hi'' : i < (chunkList (max 3 (keywords.length / 5)) keywords).length := by
    rw [← List.enum_length]
    exact hi'
  rw [List.getD_eq_getElem _ _ (by simpa using hi), List.getElem_map, List.getElem_enum,
    List.getD_eq_getElem _ _ hi'']

theorem max_chunk_pos (m : Nat) : 0 < max 3 (m / 5) := by
  have := Nat.le_max_left 3 (m / 5)
  omega

theorem fallback_flatten (keywords : List String) :
    ((fallback_grouping keywords).map (fun g => g.keywords)).flatten = keywords := by
  by_cases hne : keywords = []
  · subst hne; rfl
  · rw [fallback_grouping, if_neg hne, List.map_map]
    have hcomp :
        ((fun g : KeywordGroup => g.keywords) ∘
          (fun p : Nat × List String =>
            (⟨"group_" ++ toString (p.1 + 1), generate_group_name p.2, p.2, 1 / 2⟩ :
              KeywordGroup)))
          = Prod.snd := rfl
    rw [hcomp, List.enum_map_snd]
    exact chunkAux_flatten _ (max_chunk_pos keywords.length) _ _ le_rfl

theorem fallback_mem (keywords : List String) :
    ∀ g ∈ fallback_grouping keywords,
      g.score = 1 / 2 ∧ g.keywords ≠ []
        ∧ g.keywords.length ≤ max 3 (keywords.length / 5) ∧ g.keywords.Sublist keywords := by
  intro g hg
  have hne : keywords ≠ [] := by
    intro h
    rw [h] at hg
    simp [fallback_grouping] at hg
  rw [fallback_grouping, if_neg hne] at hg
  obtain ⟨p, hp, rfl⟩ := List.mem_map.mp hg
  have hmem : p.2 ∈ chunkList (max 3 (keywords.length / 5)) keywords := by
    have := List.mem_map_of_mem Prod.snd hp
    rwa [List.enum_map_snd] at this
  obtain ⟨h1, h2, h3⟩ :=
    chunkAux_mem _ (max_chunk_pos keywords.length) _ _ le_rfl p.2 hmem
  exact ⟨rfl, h1, h2, h3⟩

theorem fallback_length (keywords : List String) (hne : keywords ≠ []) :
    (fallback_grouping keywords).length
      = (chunkList (max 3 (keywords.length / 5)) keywords).length := by
  rw [fallback_grouping, if_neg hne]
  simp

theorem fallback_size_full (keywords : List String) :
    ∀ i, i + 1 < (fallback_grouping keywords).length →
      ((fallback_grouping keywords).getD i default).keywords.length
        = max 3 (keywords.length / 5) := by
  intro i hi
  have hne : keywords ≠ [] := by
    intro h
    rw [h] at hi
    simp [fallback_grouping] at hi
  rw [fallback_grouping_keywords_getD _ i (by omega)]
  refine chunkAux_size _ (max_chunk_pos keywords.length) _ _ le_rfl i ?_
  show i + 1 < (chunkList (max 3 (keywords.length / 5)) keywords).length
  rw [← fallback_length _ hne]
  exact hi

theorem fallback_size_dvd (keywords : List String)
    (hdvd : max 3 (keywords.length / 5) ∣ keywords.length) :
    ∀ g ∈ fallback_grouping keywords, g.keywords.length = max 3 (keywords.length / 5) := by
  intro g hg
  have hne : keywords ≠ [] := by
    intro h
    rw [h] at hg
    simp [fallback_grouping] at hg
  rw [fallback_grouping, if_neg hne] at hg
  obtain ⟨p, hp, rfl⟩ := List.mem_map.mp hg
  have hmem : p.2 ∈ chunkList (max 3 (keywords.length / 5)) keywords := by
    have := List.mem_map_of_mem Prod.snd hp
    rwa [List.enum_map_snd] at this
  exact chunkAux_size_dvd _ (max_chunk_pos keywords.length) _ _ le_rfl hdvd p.2 hmem

/-! ## Helper lemmas about index buckets and the clustering partition -/

theorem filter_range_map_getD_sublist (l : List α) (d : α) (p : Nat → Bool) :
    ((((List.range l.length).filter p).map (fun i => l.getD i d))).Sublist l := by
  induction l generalizing p with
  | nil => simp
  | cons a t ih =>
    rw [show (a :: t).length = t.length + 1 from rfl, List.range_succ_eq_map,
      List.filter_cons, List.filter_map]
    by_cases hp : p 0
    · rw [if_pos hp, List.map_cons, List.getD_cons_zero, List.map_map]
      exact List.Sublist.cons₂ a (ih (p ∘ Nat.succ))
    · rw [if_neg hp, List.map_map]
      exact List.Sublist.cons a (ih (p ∘ Nat.succ))

theorem range_map_getD (l : List α) (d : α) :
    (List.range l.length).map (fun i => l.getD i d) = l := by
  induction l with
  | nil => rfl
  | cons a t ih =>
    rw [show (a :: t).length = t.length + 1 from rfl, List.range_succ_eq_map,
      List.map_cons, List.getD_cons_zero, List.map_map]
    have hcomp : ((fun i => (a :: t).getD i d) ∘ Nat.succ) = (fun i => t.getD i d) := rfl
    rw [hcomp, ih]

theorem flatMap_ite_cons_perm (i : α) (F : Nat → List α) (c0 : Nat) :
    ∀ (cs : List Nat), cs.Nodup → c0 ∈ cs →
      ((cs.flatMap (fun c => if c0 = c then i :: F c else F c))).Perm (i :: cs.flatMap F) := by
  intro cs
  induction cs with
  | nil => intro _ hmem; cases hmem
  | cons c cs ih =>
    intro hnd hmem
    rw [List.flatMap_cons, List.flatMap_cons]
    by_cases hc : c0 = c
    · subst hc
      rw [if_pos rfl]
      have hnotin : c0 ∉ cs := (List.nodup_cons.mp hnd).1
      have hcong : cs.flatMap (fun c => if c0 = c then i :: F c else F c) = cs.flatMap F :=
        List.flatMap_congr (fun x hx => if_neg (fun h => hnotin (by rw [h]; exact hx)))
      rw [hcong, List.cons_append]
    · rw [if_neg hc]
      have hmem' : c0 ∈ cs := by
        rcases List.mem_cons.mp hmem with h | h
        · exact absurd h hc
        · exact h
      have hperm := (ih (List.nodup_cons.mp hnd).2 hmem').append_left (F c)
      exact hperm.trans List.perm_middle

theorem flatMap_filter_label_perm (k : Nat) (labels : Nat → Nat) :
    ∀ (is : List Nat), (∀ i ∈ is, labels i < k) →
      (((List.range k).flatMap (fun c => is.filter (fun i => labels i == c)))).Perm is := by
  intro is
  induction is with
  | nil => intro _; simp
  | cons i is ih =>
    intro hbound
    have hlab : labels i < k := hbound i (List.mem_cons_self i is)
    have hstep : (fun c => (i :: is).filter (fun j => labels j == c))
        = (fun c => if labels i = c then i :: is.filter (fun j => labels j == c)
            else is.filter (fun j => labels j == c)) := by
      funext c
      rw [List.filter_cons]
      by_cases h : labels i = c
      · rw [if_pos (by simpa using h), if_pos h]
      · rw [if_neg (by simpa using h), if_neg h]
    rw [hstep]
    have hmid := flatMap_ite_cons_perm i (fun c => is.filter (fun j => labels j == c))
      (labels i) (List.range k) (List.nodup_range k) (List.mem_range.mpr hlab)
    exact hmid.trans ((ih (fun j hj => hbound j (List.mem_cons_of_mem i hj))).cons i)

theorem clusterBucket_sublist (keywords : List String) (labels : Nat → Nat) (c : Nat) :
    (clusterBucket keywords labels c).Sublist keywords :=
  filter_range_map_getD_sublist keywords "" (fun i => labels i == c)

theorem cluster_flatten_reduce (keywords : List String) (labels : Nat → Nat) :
    ∀ cs : List Nat,
      (((cs.filterMap (fun c =>
          if clusterBucket keywords labels c = [] then none
          else some (⟨"group_" ++ toString (c + 1),
            generate_group_name (clusterBucket keywords labels c),
            clusterBucket keywords labels c, 4 / 5⟩ : KeywordGroup))).map
        (fun g => g.keywords)).flatten)
        = cs.flatMap (fun c => clusterBucket keywords labels c) := by
  intro cs
  induction cs with
  | nil => rfl
  | cons c cs ih =>
    rw [List.filterMap_cons, List.flatMap_cons]
    by_cases hc : clusterBucket keywords labels c = []
    · rw [if_pos hc, hc, List.nil_append]
      exact ih
    · rw [if_neg hc, List.map_cons, List.flatten_cons, ih]

theorem cluster_keywords_flatten_perm (maxGroups : Nat) (labels : Nat → Nat)
    (keywords : List String)
    (h : ∀ i, i < keywords.length → labels i < nClustersOf maxGroups keywords.length) :
    (((cluster_keywords maxGroups labels keywords).map (fun g => g.keywords)).flatten).Perm
      keywords := by
  unfold cluster_keywords
  by_cases hk : nClustersOf maxGroups keywords.length ≤ 1
  · rw [if_pos hk]
    simp
  · rw [if_neg hk]
    rw [cluster_flatten_reduce keywords labels (List.range (nClustersOf maxGroups keywords.length))]
    unfold clusterBucket
    rw [← List.map_flatMap]
    have hbound : ∀ i ∈ List.range keywords.length,
        labels i < nClustersOf maxGroups keywords.length :=
      fun i hi => h i (List.mem_range.mp hi)
    have hperm := (flatMap_filter_label_perm (nClustersOf maxGroups keywords.length) labels
      (List.range keywords.length) hbound).map (fun i => keywords.getD i "")
    rwa [range_map_getD] at hperm

theorem cluster_keywords_mem_sublist (maxGroups : Nat) (labels : Nat → Nat)
    (keywords : List String) :
    ∀ g ∈ cluster_keywords maxGroups labels keywords, g.keywords.Sublist keywords := by
  intro g hg
  unfold cluster_keywords at hg
  by_cases hk : nClustersOf maxGroups keywords.length ≤ 1
  · rw [if_pos hk] at hg
    have := List.mem_singleton.mp hg
    subst this
    exact List.Sublist.refl keywords
  · rw [if_neg hk] at hg
    obtain ⟨c, _, hc⟩ := List.mem_filterMap.mp hg
    by_cases hck : clusterBucket keywords labels c = []
    · rw [if_pos hck] at hc
      cases hc
    · rw [if_neg hck] at hc
      cases hc
      exact clusterBucket_sublist keywords labels c

/-! ## Claim theorems -/

/-- C1: on every path of `group_keywords` — the degenerate single group, the
clustering path (for any cluster labelling bounded by the cluster count, as
`kmeans.fit_predict` guarantees), and the fallback path — the member-keyword
lists of the returned groups are, taken together, a permutation of the input
(multiset union exactly the input, so no keyword is duplicated across groups or
omitted), and each group's member list is a sublist of the input, preserving
the input order inside every group. -/
theorem C1_group_total_partition (maxGroups : Nat) (embedOk : Bool) (labels : Nat → Nat)
    (keywords : List String)
    (h : ∀ i, i < keywords.length → labels i < nClustersOf maxGroups keywords.length) :
    ((((group_keywords maxGroups embedOk labels keywords).map
        (fun g => g.keywords)).flatten)).Perm keywords
    ∧ ∀ g ∈ group_keywords maxGroups embedOk labels keywords,
        g.keywords.Sublist keywords := by
  unfold group_keywords
  by_cases hlen : keywords.length < 2
  · rw [if_pos hlen]
    constructor
    · simp
    · intro g hg
      have := List.mem_singleton.mp hg
      subst this
      exact List.Sublist.refl keywords
  · rw [if_neg hlen]
    cases embedOk with
    | false =>
      rw [if_pos rfl]
      constructor
      · rw [fallback_flatten keywords]
      · intro g hg
        exact (fallback_mem keywords g hg).2.2.2
    | true =>
      rw [if_neg (by simp)]
      exact ⟨cluster_keywords_flatten_perm maxGroups labels keywords h,
        cluster_keywords_mem_sublist maxGroups labels keywords⟩

/-- Cache state after `n` requests (1 ≤ n ≤ 10) at time 0: the counter key holds
`n` with expiry instant 900. -/
theorem rlStates_formula (user : String) :
    ∀ n, 1 ≤ n → n ≤ 10 →
      rlStates user n
        = ⟨true, Function.update (fun _ => none) ("rate_limit:" ++ user)
            (some ((n : Int), some 900))⟩ := by
  intro n
  induction n with
  | zero => intro h _; omega
  | succ n ih =>
    intro _ hle
    by_cases hn : n = 0
    · subst hn
      show (check_rate_limit 0 rlInit user).2 = _
      simp [check_rate_limit, rlInit, CacheManager.get, CacheManager.liveEntry,
        CacheManager.set]
    · have hst := ih (by omega) (by omega)
      show (check_rate_limit 0 (rlStates user n) user).2 = _
      rw [hst]
      have hlt : (0 : Nat) < 900 := by omega
      have hnotbig : ¬ (10 ≤ (n : Int)) := by
        have : ¬ (10 ≤ n) := by omega
        exact_mod_cast this
      simp [check_rate_limit, CacheManager.get, CacheManager.liveEntry, CacheManager.set,
        CacheManager.increment, Function.update_same, Function.update_idem, hlt, hnotbig]

/-- Witness for C1: six keywords clustered by parity into two groups. -/
theorem C1_group_total_partition_witness :
    ((((group_keywords 20 true (fun i => i % 2)
        ["a1", "b2", "c3", "d4", "e5", "f6"]).map (fun g => g.keywords)).flatten)).Perm
      ["a1", "b2", "c3", "d4", "e5", "f6"] :=
  (C1_group_total_partition 20 true (fun i => i % 2)
    ["a1", "b2", "c3", "d4", "e5", "f6"] (by decide)).1

/-- C6: for every user, starting from a fresh cache, the first 10 requests
within one window (all at time 0) pass the rate-limit check, the 11th is
rejected and leaves the cache state untouched (so no state mutation happens on
the rejected request), and the first request of a new window — at time 900,
when the counter's TTL has expired — is accepted again. -/
theorem C6_rate_limit_window (user : String) :
    (∀ n, n < 10 → rlResult user n = true)
    ∧ rlResult user 10 = false
    ∧ rlStates user 11 = rlStates user 10
    ∧ (check_rate_limit 900 (rlStates user 11) user).1 = true := by
  have h10 := rlStates_formula user 10 (by omega) (by omega)
  have hstep11 : rlStates user 11 = rlStates user 10 := by
    show (check_rate_limit 0 (rlStates user 10) user).2 = rlStates user 10
    rw [h10]
    have hlt : (0 : Nat) < 900 := by omega
    simp [check_rate_limit, CacheManager.get, CacheManager.liveEntry,
      Function.update_same, hlt]
  refine ⟨?_, ?_, hstep11, ?_⟩
  · intro n hn
    unfold rlResult
    by_cases h0 : n = 0
    · subst h0
      simp [rlStates, check_rate_limit, rlInit, CacheManager.get, CacheManager.liveEntry]
    · rw [rlStates_formula user n (by omega) (by omega)]
      have hlt : (0 : Nat) < 900 := by omega
      have hnotbig : ¬ (10 ≤ (n : Int)) := by
        have : ¬ (10 ≤ n) := by omega
        exact_mod_cast this
      simp [check_rate_limit, CacheManager.get, CacheManager.liveEntry,
        Function.update_same, hlt, hnotbig]
  · unfold rlResult
    rw [h10]
    have hlt : (0 : Nat) < 900 := by omega
    simp [check_rate_limit, CacheManager.get, CacheManager.liveEntry,
      Function.update_same, hlt]
  · rw [hstep11, h10]
    have hexp : ¬ ((900 : Nat) < 900) := by omega
    simp [check_rate_limit, CacheManager.get, CacheManager.liveEntry, CacheManager.set,
      Function.update_same, hexp]

/-- Witness for C6 at a concrete user: the 4th request passes, the 11th is
rejected. -/
theorem C6_rate_limit_window_witness :
    rlResult "u7" 3 = true ∧ rlResult "u7" 10 = false :=
  ⟨(C6_rate_limit_window "u7").1 3 (by omega), (C6_rate_limit_window "u7").2.1⟩

/-- C5 (amended): the fallback partitions the keywords into contiguous chunks in
input order — the concatenation of the member lists equals the input — where
every chunk except possibly the last has size exactly max(3, |keywords|/5) and
the last has size between 1 and that bound; every group is scored 0.5; in
particular on a 12-keyword input every group has size exactly 3. -/
theorem C5_fallback_structure_amended (keywords : List String) :
    ((fallback_grouping keywords).map (fun g => g.keywords)).flatten = keywords
    ∧ (∀ g ∈ fallback_grouping keywords,
        g.score = 1 / 2 ∧ g.keywords ≠ []
          ∧ g.keywords.length ≤ max 3 (keywords.length / 5))
    ∧ (∀ i, i + 1 < (fallback_grouping keywords).length →
        ((fallback_grouping keywords).getD i default).keywords.length
          = max 3 (keywords.length / 5))
    ∧ (keywords.length = 12 → ∀ g ∈ fallback_grouping keywords, g.keywords.length = 3) := by
  refine ⟨fallback_flatten keywords, ?_, fallback_size_full keywords, ?_⟩
  · intro g hg
    obtain ⟨h1, h2, h3, _⟩ := fallback_mem keywords g hg
    exact ⟨h1, h2, h3⟩
  · intro h12 g hg
    have hγ : max 3 (keywords.length / 5) = 3 := by rw [h12]; decide
    have hdvd : max 3 (keywords.length / 5) ∣ keywords.length := by
      rw [hγ, h12]
      exact ⟨4, rfl⟩
    have := fallback_size_dvd keywords hdvd g hg
    rw [hγ] at this
    exact this

/-- Witness for the amended C5 on the concrete 12-keyword list. -/
theorem C5_fallback_structure_amended_witness :
    ((fallback_grouping kws12).map (fun g => g.keywords)).flatten = kws12
    ∧ ((fallback_grouping kws12).getD 0 default).keywords.length
        = max 3 (kws12.length / 5) :=
  ⟨(C5_fallback_structure_amended kws12).1,
    (C5_fallback_structure_amended kws12).2.2.1 0 (by decide)⟩

/-- C7 (amended): for every non-empty input, every group returned by
`group_keywords` — on the degenerate, clustering and fallback paths alike — has
a non-empty member-keyword list; for at most one keyword, exactly one group
with score 1.0 is returned whose member list equals the input (and is therefore
empty exactly when the input is the empty list). -/
theorem C7_groups_nonempty_amended (maxGroups : Nat) (embedOk : Bool)
    (labels : Nat → Nat) (keywords : List String) :
    (keywords ≠ [] →
      ∀ g ∈ group_keywords maxGroups embedOk labels keywords, g.keywords ≠ [])
    ∧ (keywords.length ≤ 1 →
        group_keywords maxGroups embedOk labels keywords
          = [⟨"group_1", keywords.headD "empty", keywords, 1⟩]) := by
  constructor
  · intro hne g hg
    unfold group_keywords at hg
    by_cases hlen : keywords.length < 2
    · rw [if_pos hlen] at hg
      have := List.mem_singleton.mp hg
      subst this
      exact hne
    · rw [if_neg hlen] at hg
      cases embedOk with
      | false =>
        simp only [if_pos rfl] at hg
        exact (fallback_mem keywords g hg).2.1
      | true =>
        simp only [Bool.true_eq_false, if_neg (by simp : ¬(True ∧ False)), if_false] at hg
        unfold cluster_keywords at hg
        by_cases hk : nClustersOf maxGroups keywords.length ≤ 1
        · rw [if_pos hk] at hg
          have := List.mem_singleton.mp hg
          subst this
          exact hne
        · rw [if_neg hk] at hg
          obtain ⟨c, _, hc⟩ := List.mem_filterMap.mp hg
          by_cases hck : clusterBucket keywords labels c = []
          · rw [if_pos hck] at hc
            cases hc
          · rw [if_neg hck] at hc
            cases hc
            exact hck
  · intro hle
    unfold group_keywords
    rw [if_pos (by omega)]

/-- Witness for the amended C7 on a concrete one-keyword input. -/
theorem C7_groups_nonempty_amended_witness :
    group_keywords 20 true (fun _ => 0) ["solar"]
      = [⟨"group_1", "solar", ["solar"], 1⟩] := by
  have h := (C7_groups_nonempty_amended 20 true (fun _ => 0) ["solar"]).2 (by decide)
  simpa using h

/-- C8: `filter_similar_keywords` is the greedy Jaccard pass that keeps the
shorter of two similar keywords: on the pair "content marketing" /
"content marketing strategy" with threshold 1/2 only the shorter string
survives, in either input order (the second order exercises the branch that
removes an already-accepted longer keyword), the word-set Jaccard similarity
of the pair being 2/3 > 1/2. -/
theorem C8_filter_similar_keeps_shorter :
    filter_similar_keywords ["content marketing", "content marketing strategy"] (1 / 2)
        = ["content marketing"]
    ∧ filter_similar_keywords ["content marketing strategy", "content marketing"] (1 / 2)
        = ["content marketing"]
    ∧ calculate_similarity "content marketing" "content marketing strategy" = 2 / 3 := by
  have hs1 : calculate_similarity "content marketing" "content marketing strategy" = 2 / 3 := by
    have hne1 : ¬(("content marketing" : String) = ""
        ∨ ("content marketing strategy" : String) = "") := by decide
    have hne2 : ¬(wordFinset "content marketing" = ∅
        ∨ wordFinset "content marketing strategy" = ∅) := by decide
    have hi : (wordFinset "content marketing" ∩ wordFinset "content marketing strategy").card
        = 2 := by decide
    have hu : (wordFinset "content marketing" ∪ wordFinset "content marketing strategy").card
        = 3 := by decide
    simp [calculate_similarity, hne1, hne2, hi, hu]
  have hs2 : calculate_similarity "content marketing strategy" "content marketing" = 2 / 3 := by
    have hne1 : ¬(("content marketing strategy" : String) = ""
        ∨ ("content marketing" : String) = "") := by decide
    have hne2 : ¬(wordFinset "content marketing strategy" = ∅
        ∨ wordFinset "content marketing" = ∅) := by decide
    have hi : (wordFinset "content marketing strategy" ∩ wordFinset "content marketing").card
        = 2 := by decide
    have hu : (wordFinset "content marketing strategy" ∪ wordFinset "content marketing").card
        = 3 := by decide
    simp [calculate_similarity, hne1, hne2, hi, hu]
  have hlt : ((2 : ℚ))⁻¹ < 2 / 3 := by norm_num
  have hlen1 : ¬(("content marketing strategy" : String).length
      < ("content marketing" : String).length) := by decide
  have hlen2 : ("content marketing" : String).length
      < ("content marketing strategy" : String).length := by decide
  refine ⟨?_, ?_, hs1⟩ <;>
    simp [filter_similar_keywords, filterStep, findSimilarIn, hs1, hs2, hlt,
      hlen1, hlen2, List.erase_cons]

/-- C10: with the cache client unavailable, every rate-limit check passes and
leaves the cache unchanged, and the processing-lock check reports no lock, so
the pipeline start is not blocked: throttling and per-batch mutual exclusion
degrade to no-ops. -/
theorem C10_cache_unavailable_degrades (now : Nat)
    (eInt : String → Option (Int × Option Nat)) (eStr : String → Option (String × Option Nat))
    (db : String → Option String) (user batchId : String) :
    check_rate_limit now ⟨false, eInt⟩ user = (true, ⟨false, eInt⟩)
    ∧ CacheManager.existsKey now ⟨false, eStr⟩ ("processing:" ++ batchId) = false
    ∧ (start_batch_processing now db ⟨false, eStr⟩ batchId).1 = StartResult.started := by
  refine ⟨?_, rfl, ?_⟩ <;>
    simp [check_rate_limit, start_batch_processing, CacheManager.get,
      CacheManager.set, CacheManager.existsKey]

/-- C4: when the processing lock for a batch already exists, the handler posts
the "already processing" notice, starts no second pipeline run, and returns the
batch store and the whole cache unchanged (in particular the existing lock
entry and its TTL are untouched). -/
theorem C4_lock_held_no_second_run (now : Nat) (db : String → Option String)
    (cache : CacheManager String) (batchId : String)
    (h : CacheManager.existsKey now cache ("processing:" ++ batchId) = true) :
    start_batch_processing now db cache batchId = (.alreadyProcessing, db, cache) := by
  simp [start_batch_processing, h]

/-- Witness for C4 at a concrete locked cache. -/
theorem C4_lock_held_no_second_run_witness :
    start_batch_processing 0 (fun _ => none)
        ⟨true, fun k => if k = "processing:B1" then some ("processing", some 100) else none⟩ "B1"
      = (.alreadyProcessing, fun _ => none,
          ⟨true, fun k => if k = "processing:B1" then some ("processing", some 100) else none⟩) :=
  C4_lock_held_no_second_run 0 _ _ "B1" (by decide)

/-- C3: whenever one of the four pipeline stages fails, the batch's persisted
status ends as "failed"; and on every exit path, success or failure, the
processing lock key no longer exists afterwards (checked via the cache's
`exists`). -/
theorem C3_stage_failure_fails_and_releases_lock (o : StageOutcomes) (batchId : String)
    (now : Nat) (db : String → Option String) (cache : CacheManager String) :
    ((o.groupOk = false ∨ o.outlineOk = false ∨ o.ideateOk = false ∨ o.reportOk = false) →
      (process_batch_background o batchId now db cache).1 batchId = some "failed")
    ∧ CacheManager.existsKey now (process_batch_background o batchId now db cache).2
        ("processing:" ++ batchId) = false := by
  obtain ⟨g, ol, idt, rp⟩ := o
  obtain ⟨cl, ent⟩ := cache
  cases g <;> cases ol <;> cases idt <;> cases rp <;> cases cl <;>
    simp [process_batch_background, CacheManager.existsKey, CacheManager.liveEntry,
      CacheManager.delete, Function.update_same]

/-- Witness for C3: failure injected at the outline stage. -/
theorem C3_stage_failure_fails_and_releases_lock_witness :
    (process_batch_background ⟨true, false, true, true⟩ "B1" 0 (fun _ => none)
        ⟨true, fun _ => none⟩).1 "B1" = some "failed" :=
  (C3_stage_failure_fails_and_releases_lock ⟨true, false, true, true⟩ "B1" 0 _ _).1
    (Or.inr (Or.inl rfl))

/-- C9 counterexample: with batch "B1" owned by "alice", a regenerate request by
"bob" for "B1" (an authorization failure) gets the very same `batchNotFound`
response as a regenerate request for the missing batch "B2", so on the
regenerate path the authorization failure is not surfaced distinctly from
"not found". -/
theorem C9_regenerate_conflates_cex :
    handle_regenerate_command
        (fun b => if b = "B1" then some ⟨"alice", ["k1"], "uploaded"⟩ else none) "bob" "B1"
      = SlackResponse.batchNotFound
    ∧ handle_regenerate_command
        (fun b => if b = "B1" then some ⟨"alice", ["k1"], "uploaded"⟩ else none) "bob" "B2"
      = SlackResponse.batchNotFound := by
  decide

/-- C9 (amended): a `/process` request on an existing batch owned by another
user is answered with `unauthorizedBatch`, which is distinct from
`batchNotFound`; a `/regenerate` request in the same situation is answered with
`batchNotFound` itself, so only the process path distinguishes the two. -/
theorem C9_process_auth_distinct_amended (db : String → Option KeywordBatch)
    (userId batchId : String) (b : KeywordBatch)
    (hb : db batchId = some b) (hu : b.userId ≠ userId) (hne : batchId ≠ "") :
    handle_process_command db userId batchId = SlackResponse.unauthorizedBatch
    ∧ SlackResponse.unauthorizedBatch ≠ SlackResponse.batchNotFound
    ∧ handle_regenerate_command db userId batchId = SlackResponse.batchNotFound := by
  refine ⟨?_, by decide, ?_⟩ <;>
    simp [handle_process_command, handle_regenerate_command, hne, hb, hu]

/-- Witness for the amended C9 at a concrete store. -/
theorem C9_process_auth_distinct_amended_witness :
    handle_process_command
        (fun b => if b = "B1" then some ⟨"alice", ["k1"], "uploaded"⟩ else none) "bob" "B1"
      = SlackResponse.unauthorizedBatch :=
  (C9_process_auth_distinct_amended _ "bob" "B1" ⟨"alice", ["k1"], "uploaded"⟩
    (by decide) (by decide) (by decide)).1

/-- C7 counterexample: on the empty keyword list the grouper still returns one
group (score 1.0, name "empty") whose member-keyword list is empty, so the
non-emptiness invariant fails for the empty input. -/
theorem C7_empty_batch_empty_group_cex :
    group_keywords 20 true (fun _ => 0) [] = [⟨"group_1", "empty", [], 1⟩]
    ∧ ¬ (∀ g ∈ group_keywords 20 true (fun _ => 0) [], g.keywords ≠ []) := by
  decide

/-- C5 counterexample: on four keywords the chunk size is max(3, 4/5) = 3, but
the fallback produces groups of sizes 3 and 1 — the final group has neither the
stated chunk size nor size at least 3. -/
theorem C5_fallback_chunk_size_cex :
    (fallback_grouping ["alpha", "beta", "gamma", "delta"]).map (fun g => g.keywords.length)
      = [3, 1]
    ∧ ¬ (∀ g ∈ fallback_grouping ["alpha", "beta", "gamma", "delta"],
          g.keywords.length = max 3 (4 / 5)) := by
  decide

/-! ## Helper lemmas for normalization idempotence -/

theorem toNat_ofNat_small (n : Nat) (h : n < 55296) : (Char.ofNat n).toNat = n := by
  have hv : n.isValidChar := Or.inl h
  simp only [Char.ofNat, dif_pos hv]
  simp [Char.ofNatAux, Char.toNat, UInt32.toNat]

theorem lowerChar_toNat (c : Char) (h : 65 ≤ c.toNat ∧ c.toNat ≤ 90) :
    (lowerChar c).toNat = c.toNat + 32 := by
  rw [lowerChar, if_pos h]
  exact toNat_ofNat_small _ (by omega)

theorem lowerChar_eq_self (c : Char) (h : ¬(65 ≤ c.toNat ∧ c.toNat ≤ 90)) :
    lowerChar c = c := by
  rw [lowerChar, if_neg h]

theorem lowerChar_lowerChar (c : Char) : lowerChar (lowerChar c) = lowerChar c := by
  by_cases h : 65 ≤ c.toNat ∧ c.toNat ≤ 90
  · apply lowerChar_eq_self
    rw [lowerChar_toNat c h]
    omega
  · rw [lowerChar_eq_self c h, lowerChar_eq_self c h]

theorem isWs_iff (c : Char) :
    isWs c = true ↔ (c.toNat = 32 ∨ c.toNat = 9 ∨ c.toNat = 10 ∨ c.toNat = 13
      ∨ c.toNat = 11 ∨ c.toNat = 12) := by
  simp only [isWs, Bool.or_eq_true, beq_iff_eq]
  tauto

theorem isWordChar_iff (c : Char) :
    isWordChar c = true ↔ ((65 ≤ c.toNat ∧ c.toNat ≤ 90) ∨ (97 ≤ c.toNat ∧ c.toNat ≤ 122)
      ∨ (48 ≤ c.toNat ∧ c.toNat ≤ 57) ∨ c.toNat = 95) := by
  simp only [isWordChar, Bool.or_eq_true, Bool.and_eq_true, decide_eq_true_eq, beq_iff_eq]
  tauto

theorem lowerChar_of_ws (c : Char) (h : isWs c = true) : lowerChar c = c := by
  apply lowerChar_eq_self
  rw [isWs_iff] at h
  omega

theorem isWordChar_lowerChar (c : Char) (h : isWordChar c = true) :
    isWordChar (lowerChar c) = true := by
  rw [isWordChar_iff] at h ⊢
  by_cases hu : 65 ≤ c.toNat ∧ c.toNat ≤ 90
  · rw [lowerChar_toNat c hu]
    omega
  · rw [lowerChar_eq_self c hu]
    exact h

theorem isWordChar_not_ws (c : Char) (h : isWordChar c = true) : isWs c = false := by
  cases hws : isWs c with
  | false => rfl
  | true =>
    rw [isWs_iff] at hws
    rw [isWordChar_iff] at h
    omega

theorem isWordChar_ne_hyphen (c : Char) (h : isWordChar c = true) : (c == '-') = false := by
  cases hb : c == '-' with
  | false => rfl
  | true =>
    have hc : c = '-' := eq_of_beq hb
    subst hc
    exact absurd h (by decide)

theorem mem_of_head? {l : List Char} {c : Char} (h : l.head? = some c) : c ∈ l := by
  cases l with
  | nil => cases h
  | cons a t =>
    have : a = c := by simpa using h
    subst this
    exact List.mem_cons_self a t

theorem mem_of_getLast? {l : List Char} {c : Char} (h : l.getLast? = some c) : c ∈ l := by
  rw [← List.head?_reverse] at h
  exact List.mem_reverse.mp (mem_of_head? h)

theorem dropWhile_eq_self_of_head (p : Char → Bool) (l : List Char)
    (h : ∀ c, l.head? = some c → p c = false) : l.dropWhile p = l := by
  cases l with
  | nil => rfl
  | cons a t =>
    rw [List.dropWhile_cons, h a rfl]
    simp

theorem head?_dropWhile (p : Char → Bool) (l : List Char) :
    ∀ c, (l.dropWhile p).head? = some c → p c = false := by
  induction l with
  | nil => intro c h; cases h
  | cons a t ih =>
    intro c h
    rw [List.dropWhile_cons] at h
    by_cases hp : p a
    · rw [if_pos hp] at h
      exact ih c h
    · rw [if_neg hp] at h
      have : a = c := by simpa using h
      subst this
      exact Bool.eq_false_iff.mpr hp

theorem suffix_getLast? {l₁ l₂ : List Char} (h : l₁ <:+ l₂) (hne : l₁ ≠ []) :
    l₂.getLast? = l₁.getLast? := by
  obtain ⟨t, rfl⟩ := h
  rw [List.getLast?_append]
  cases hl : l₁.getLast? with
  | none => exact absurd (List.getLast?_eq_none_iff.mp hl) hne
  | some c => rfl

theorem stripBoth_head? (p : Char → Bool) (l : List Char) :
    ∀ c, (stripBoth p l).head? = some c → p c = false := by
  intro c h
  unfold stripBoth at h
  rw [List.head?_reverse] at h
  have hne : (l.dropWhile p).reverse.dropWhile p ≠ [] := by
    intro h0
    rw [h0] at h
    cases h
  rw [← suffix_getLast? (List.dropWhile_suffix p) hne, List.getLast?_reverse] at h
  exact head?_dropWhile p l c h

theorem stripBoth_getLast? (p : Char → Bool) (l : List Char) :
    ∀ c, (stripBoth p l).getLast? = some c → p c = false := by
  intro c h
  unfold stripBoth at h
  rw [List.getLast?_reverse] at h
  exact head?_dropWhile p _ c h

theorem stripBoth_subset (p : Char → Bool) (l : List Char) :
    ∀ c ∈ stripBoth p l, c ∈ l := by
  intro c hc
  unfold stripBoth at hc
  rw [List.mem_reverse] at hc
  have h1 : c ∈ (l.dropWhile p).reverse := (List.dropWhile_sublist p).subset hc
  rw [List.mem_reverse] at h1
  exact (List.dropWhile_sublist p).subset h1

theorem stripBoth_eq_self (p : Char → Bool) (l : List Char)
    (hh : ∀ c, l.head? = some c → p c = false)
    (hl : ∀ c, l.getLast? = some c → p c = false) : stripBoth p l = l := by
  unfold stripBoth
  rw [dropWhile_eq_self_of_head p l hh]
  rw [dropWhile_eq_self_of_head p l.reverse ?_, List.reverse_reverse]
  intro c h
  rw [List.head?_reverse] at h
  exact hl c h

theorem stripBoth_eq_self_of_all (p : Char → Bool) (l : List Char)
    (h : ∀ c ∈ l, p c = false) : stripBoth p l = l := by
  apply stripBoth_eq_self
  · intro c hc
    exact h c (mem_of_head? hc)
  · intro c hc
    exact h c (mem_of_getLast? hc)

theorem chain_ws_reverse (l : List Char)
    (h : l.Chain' (fun a b => isWs a = false ∨ isWs b = false)) :
    l.reverse.Chain' (fun a b => isWs a = false ∨ isWs b = false) := by
  rw [List.chain'_reverse]
  exact h.imp (fun a b hab => hab.symm)

theorem chain_ws_stripBoth (p : Char → Bool) (l : List Char)
    (h : l.Chain' (fun a b => isWs a = false ∨ isWs b = false)) :
    (stripBoth p l).Chain' (fun a b => isWs a = false ∨ isWs b = false) :=
  chain_ws_reverse _
    ((chain_ws_reverse _ (h.suffix (List.dropWhile_suffix p))).suffix
      (List.dropWhile_suffix p))

theorem collapseWs_single (c : Char) : collapseWs [c] = if isWs c then [' '] else [c] := rfl

theorem collapseWs_cons_cons (c c2 : Char) (t : List Char) :
    collapseWs (c :: c2 :: t)
      = if isWs c then
          (if isWs c2 then collapseWs (c2 :: t) else ' ' :: collapseWs (c2 :: t))
        else c :: collapseWs (c2 :: t) := rfl

theorem collapseWs_mem : ∀ (l : List Char), ∀ x ∈ collapseWs l, x = ' ' ∨ x ∈ l := by
  intro l
  induction l with
  | nil => intro x hx; cases hx
  | cons c cs ih =>
    intro x hx
    cases cs with
    | nil =>
      rw [collapseWs_single c] at hx
      by_cases h : isWs c
      · rw [if_pos h] at hx
        exact Or.inl (List.mem_singleton.mp hx)
      · rw [if_neg h] at hx
        exact Or.inr (by simpa using List.mem_singleton.mp hx)
    | cons c2 t =>
      rw [collapseWs_cons_cons c c2 t] at hx
      by_cases h : isWs c
      · rw [if_pos h] at hx
        by_cases h2 : isWs c2
        · rw [if_pos h2] at hx
          rcases ih x hx with h' | h'
          · exact Or.inl h'
          · exact Or.inr (List.mem_cons_of_mem c h')
        · rw [if_neg h2] at hx
          rcases List.mem_cons.mp hx with rfl | hx'
          · exact Or.inl rfl
          · rcases ih x hx' with h' | h'
            · exact Or.inl h'
            · exact Or.inr (List.mem_cons_of_mem c h')
      · rw [if_neg h] at hx
        rcases List.mem_cons.mp hx with rfl | hx'
        · exact Or.inr (List.mem_cons_self x (c2 :: t))
        · rcases ih x hx' with h' | h'
          · exact Or.inl h'
          · exact Or.inr (List.mem_cons_of_mem c h')

theorem collapseWs_ws_eq_space :
    ∀ (l : List Char), ∀ x ∈ collapseWs l, isWs x = true → x = ' ' := by
  intro l
  induction l with
  | nil => intro x hx; cases hx
  | cons c cs ih =>
    intro x hx hw
    cases cs with
    | nil =>
      rw [collapseWs_single c] at hx
      by_cases h : isWs c
      · rw [if_pos h] at hx
        exact List.mem_singleton.mp hx
      · rw [if_neg h] at hx
        have : x = c := List.mem_singleton.mp hx
        subst this
        exact absurd hw (by simp [Bool.eq_false_iff.mpr h])
    | cons c2 t =>
      rw [collapseWs_cons_cons c c2 t] at hx
      by_cases h : isWs c
      · rw [if_pos h] at hx
        by_cases h2 : isWs c2
        · rw [if_pos h2] at hx
          exact ih x hx hw
        · rw [if_neg h2] at hx
          rcases List.mem_cons.mp hx with rfl | hx'
          · rfl
          · exact ih x hx' hw
      · rw [if_neg h] at hx
        rcases List.mem_cons.mp hx with rfl | hx'
        · exact absurd hw (by simp [Bool.eq_false_iff.mpr h])
        · exact ih x hx' hw

theorem collapseWs_head_not_ws (c2 : Char) (t : List Char) (h : isWs c2 = false) :
    (collapseWs (c2 :: t)).head? = some c2 := by
  cases t with
  | nil =>
    rw [collapseWs_single c2, if_neg (by simp [h])]
    rfl
  | cons d t' =>
    rw [collapseWs_cons_cons c2 d t', if_neg (by simp [h])]
    rfl

theorem collapseWs_chain (l : List Char) :
    (collapseWs l).Chain' (fun a b => isWs a = false ∨ isWs b = false) := by
  induction l with
  | nil => exact List.chain'_nil
  | cons c cs ih =>
    cases cs with
    | nil =>
      rw [collapseWs_single c]
      by_cases h : isWs c
      · rw [if_pos h]
        exact List.chain'_singleton _
      · rw [if_neg h]
        exact List.chain'_singleton _
    | cons c2 t =>
      rw [collapseWs_cons_cons c c2 t]
      by_cases h : isWs c
      · rw [if_pos h]
        by_cases h2 : isWs c2
        · rw [if_pos h2]
          exact ih
        · rw [if_neg h2]
          rw [List.chain'_cons']
          constructor
          · intro y hy
            rw [collapseWs_head_not_ws c2 t (Bool.eq_false_iff.mpr h2)] at hy
            have : y = c2 := by
              have := (by simpa using hy : c2 = y)
              exact this.symm
            subst this
            exact Or.inr (Bool.eq_false_iff.mpr h2)
          · exact ih
      · rw [if_neg h]
        rw [List.chain'_cons']
        exact ⟨fun y _ => Or.inl (Bool.eq_false_iff.mpr h), ih⟩

theorem collapseWs_eq_self :
    ∀ (l : List Char), (∀ x ∈ l, isWs x = true → x = ' ') →
      l.Chain' (fun a b => isWs a = false ∨ isWs b = false) →
      collapseWs l = l := by
  intro l
  induction l with
  | nil => intro _ _; rfl
  | cons c cs ih =>
    intro hsp hch
    cases cs with
    | nil =>
      rw [collapseWs_single c]
      by_cases h : isWs c
      · rw [if_pos h, hsp c (List.mem_cons_self c []) h]
      · rw [if_neg h]
    | cons c2 t =>
      rw [collapseWs_cons_cons c c2 t]
      have hch2 := hch.tail
      have hrec := ih (fun x hx hw => hsp x (List.mem_cons_of_mem c hx) hw) hch2
      by_cases h : isWs c
      · have hR := (List.chain'_cons.mp hch).1
        have h2 : isWs c2 = false := by
          rcases hR with h' | h'
          · rw [h'] at h
            cases h
          · exact h'
        rw [if_pos h, if_neg (by simp [h2]), hrec, hsp c (List.mem_cons_self c (c2 :: t)) h]
      · rw [if_neg h, hrec]

theorem map_lowerChar_eq_self (l : List Char) (h : ∀ x ∈ l, lowerChar x = x) :
    l.map lowerChar = l := by
  rw [List.map_congr_left (g := id) (fun a ha => h a ha), List.map_id]

/-- Every character class needed of a cleaned string: all characters are
lowercase-fixed word characters or single spaces, no two adjacent whitespace
characters, no leading or trailing whitespace. -/
theorem cleanList_props (l : List Char)
    (hW : ∀ x ∈ l, isWordChar x = true ∨ isWs x = true) :
    (∀ x ∈ cleanList l, lowerChar x = x)
    ∧ (∀ x ∈ cleanList l, isWordChar x = true ∨ x = ' ')
    ∧ (cleanList l).Chain' (fun a b => isWs a = false ∨ isWs b = false)
    ∧ (∀ c, (cleanList l).head? = some c → isWs c = false)
    ∧ (∀ c, (cleanList l).getLast? = some c → isWs c = false) := by
  have hL1chars : ∀ x ∈ stripBoth isWs (l.map lowerChar),
      (isWordChar x = true ∨ isWs x = true) ∧ lowerChar x = x := by
    intro x hx
    have hx' : x ∈ l.map lowerChar := stripBoth_subset _ _ x hx
    obtain ⟨y, hy, rfl⟩ := List.mem_map.mp hx'
    rcases hW y hy with hw | hw
    · exact ⟨Or.inl (isWordChar_lowerChar y hw), lowerChar_lowerChar y⟩
    · rw [lowerChar_of_ws y hw]
      exact ⟨Or.inr hw, lowerChar_of_ws y hw⟩
  have hL2chars : ∀ x ∈ collapseWs (stripBoth isWs (l.map lowerChar)),
      (isWordChar x = true ∨ x = ' ') ∧ lowerChar x = x := by
    intro x hx
    have hws := collapseWs_ws_eq_space _ x hx
    rcases collapseWs_mem _ x hx with rfl | hx'
    · exact ⟨Or.inr rfl, by decide⟩
    · obtain ⟨hclass, hfix⟩ := hL1chars x hx'
      rcases hclass with hw | hw
      · exact ⟨Or.inl hw, hfix⟩
      · exact ⟨Or.inr (hws hw), hfix⟩
  have hL2chain := collapseWs_chain (stripBoth isWs (l.map lowerChar))
  have hrs : removeSpecials (collapseWs (stripBoth isWs (l.map lowerChar)))
      = collapseWs (stripBoth isWs (l.map lowerChar)) := by
    apply List.filter_eq_self.mpr
    intro x hx
    rcases (hL2chars x hx).1 with hw | rfl
    · simp [hw]
    · decide
  have hsh : stripBoth (fun c => c == '-') (collapseWs (stripBoth isWs (l.map lowerChar)))
      = collapseWs (stripBoth isWs (l.map lowerChar)) := by
    apply stripBoth_eq_self_of_all
    intro x hx
    rcases (hL2chars x hx).1 with hw | rfl
    · exact isWordChar_ne_hyphen x hw
    · decide
  have hclean : cleanList l
      = stripBoth isWs (collapseWs (stripBoth isWs (l.map lowerChar))) := by
    unfold cleanList
    rw [hrs, hsh]
  refine ⟨?_, ?_, ?_, ?_, ?_⟩ <;> rw [hclean]
  · intro x hx
    exact (hL2chars x (stripBoth_subset _ _ x hx)).2
  · intro x hx
    exact (hL2chars x (stripBoth_subset _ _ x hx)).1
  · exact chain_ws_stripBoth _ _ hL2chain
  · exact stripBoth_head? _ _
  · exact stripBoth_getLast? _ _

/-- Strings in the normal form of `cleanList_props` are fixed points of the
cleaning pipeline. -/
theorem cleanList_fixed (l : List Char)
    (hlower : ∀ x ∈ l, lowerChar x = x)
    (hclass : ∀ x ∈ l, isWordChar x = true ∨ x = ' ')
    (hchain : l.Chain' (fun a b => isWs a = false ∨ isWs b = false))
    (hhead : ∀ c, l.head? = some c → isWs c = false)
    (hlast : ∀ c, l.getLast? = some c → isWs c = false) :
    cleanList l = l := by
  have hspace : ∀ x ∈ l, isWs x = true → x = ' ' := by
    intro x hx hw
    rcases hclass x hx with h | rfl
    · rw [isWordChar_not_ws x h] at hw
      cases hw
    · rfl
  have hrs : removeSpecials l = l := by
    apply List.filter_eq_self.mpr
    intro x hx
    rcases hclass x hx with h | rfl
    · simp [h]
    · decide
  have hsh : stripBoth (fun c => c == '-') l = l := by
    apply stripBoth_eq_self_of_all
    intro x hx
    rcases hclass x hx with h | rfl
    · exact isWordChar_ne_hyphen x h
    · decide
  unfold cleanList
  rw [map_lowerChar_eq_self l hlower, stripBoth_eq_self isWs l hhead hlast,
    collapseWs_eq_self l hspace hchain, hrs, hsh,
    stripBoth_eq_self isWs l hhead hlast]

/-- C2 counterexample: cleaning "- -a" yields "-a" (the strip of whitespace
exposes a hyphen that the hyphen strip already missed), and cleaning the result
again yields "a", so normalization is not idempotent on all strings. -/
theorem C2_normalize_not_idempotent_cex :
    clean_keyword "- -a" = "-a"
    ∧ clean_keyword (clean_keyword "- -a") ≠ clean_keyword "- -a" := by
  decide

/-- C2 (amended): normalization is idempotent on every input consisting only of
word characters and whitespace — in particular on every keyword free of hyphens
and punctuation — while idempotence fails on general strings (see the
counterexample, where stripping whitespace after the hyphen strip exposes a new
edge hyphen). -/
theorem C2_normalize_idempotent_amended (s : String)
    (h : ∀ c ∈ s.toList, isWordChar c = true ∨ isWs c = true) :
    clean_keyword (clean_keyword s) = clean_keyword s := by
  obtain ⟨h1, h2, h3, h4, h5⟩ := cleanList_props s.toList h
  show (⟨cleanList (String.toList ⟨cleanList s.toList⟩)⟩ : String) = ⟨cleanList s.toList⟩
  have htl : String.toList ⟨cleanList s.toList⟩ = cleanList s.toList := rfl
  rw [htl, cleanList_fixed _ h1 h2 h3 h4 h5]

/-- Witness for the amended C2 on a concrete mixed-case input with a double
space. -/
theorem C2_normalize_idempotent_amended_witness :
    clean_keyword (clean_keyword "Hello  World") = clean_keyword "Hello  World" :=
  C2_normalize_idempotent_amended "Hello  World" (by decide)

end Pipeline
